import Mathlib

/-!
Verification of the `rust_rtree` spatial index core.

A shallow embedding, in Lean 4, of the R-tree core found in
`src/rtree/{geometries,nodes,utils,split}.rs`, together with theorems settling
the frozen claims about its specification.

Modelling conventions:
* Rust `i64` values are modelled as unbounded `Int`; the sentinels
  `INF = f64::INFINITY as i64 = i64::MAX` and
  `NEGINF = f64::NEG_INFINITY as i64 = i64::MIN` are the corresponding
  integer constants.
* Code that panics (out-of-bounds `Vec` indexing, `Vec::remove` past the end)
  or that reads `MaybeUninit` scratch that was never written returns
  `Option.none` in the embedding.
* The uuid-based `id` fields and the weak `parent` back-references are
  bookkeeping for printing/reattachment only; no claim depends on them, so
  the embedded structures omit them.
* Two bindings in `nodes.rs` (`min_d` in `pick_next_*`, `to_final_push` in
  `pick_underfull`) are assigned without being declared `mut`; the embedding
  reads the assignments as written (the evident intent of the surrounding
  loop).
-/

set_option maxRecDepth 20000

/-- `Coordinates` from `lib.rs`: `pub type Coordinates = (i64, i64);`. -/
abbrev Coordinates := Int × Int

/-- `const INF: i64 = INFINITY as i64;` — saturates to `i64::MAX`. -/
def INF : Int := 2 ^ 63 - 1

/-- `const NEGINF: i64 = NEG_INFINITY as i64;` — saturates to `i64::MIN`. -/
def NEGINF : Int := -(2 ^ 63)

/-- `GeometryType` from `geometries.rs`. -/
inductive GeometryType where
  | Point
  | Polygon
  | Line
deriving DecidableEq

/-- `BoundingRectangle` from `geometries.rs`: corners plus the stored area. -/
structure BoundingRectangle where
  left : Coordinates
  right : Coordinates
  area : Int
deriving DecidableEq

/-- `BoundingRectangle::count_area`. -/
def count_area (left right : Coordinates) : Int :=
  (right.1 - left.1) * (right.2 - left.2)

/-- `BoundingRectangle::new`. -/
def BoundingRectangle.new (left right : Coordinates) : BoundingRectangle :=
  { left := left, right := right, area := count_area left right }

/-- State of the four running trackers (`min_x`, `min_y`, `max_x`, `max_y`)
used by `generate_mbr` and `common_mbr`. -/
structure ScanState where
  min_x : Int
  min_y : Int
  max_x : Int
  max_y : Int

/-- One loop iteration of `BoundingRectangle::generate_mbr`: note the
`if … else if …` chains — a coordinate that sets a new minimum on an axis
skips the maximum update for that axis, exactly as the Rust source does. -/
def generate_mbr_step (s : ScanState) (c : Coordinates) : ScanState :=
  let s1 :=
    if c.1 < s.min_x then { s with min_x := c.1 }
    else if c.1 > s.max_x then { s with max_x := c.1 }
    else s
  if c.2 < s1.min_y then { s1 with min_y := c.2 }
  else if c.2 > s1.max_y then { s1 with max_y := c.2 }
  else s1

/-- `BoundingRectangle::generate_mbr`. -/
def generate_mbr (coords : List Coordinates) : BoundingRectangle :=
  let s := coords.foldl generate_mbr_step
    { min_x := INF, min_y := INF, max_x := NEGINF, max_y := NEGINF }
  BoundingRectangle.new (s.min_x, s.min_y) (s.max_x, s.max_y)

/-- One loop iteration of `BoundingRectangle::common_mbr`: four independent
`if`s, so every rectangle updates each tracker it improves. -/
def common_mbr_step (s : ScanState) (mbr : BoundingRectangle) : ScanState :=
  let s1 := if mbr.left.1 < s.min_x then { s with min_x := mbr.left.1 } else s
  let s2 := if mbr.right.1 > s1.max_x then { s1 with max_x := mbr.right.1 } else s1
  let s3 := if mbr.left.2 < s2.min_y then { s2 with min_y := mbr.left.2 } else s2
  if mbr.right.2 > s3.max_y then { s3 with max_y := mbr.right.2 } else s3

/-- `BoundingRectangle::common_mbr`. -/
def common_mbr (list_mbrs : List BoundingRectangle) : BoundingRectangle :=
  let s := list_mbrs.foldl common_mbr_step
    { min_x := INF, min_y := INF, max_x := NEGINF, max_y := NEGINF }
  BoundingRectangle.new (s.min_x, s.min_y) (s.max_x, s.max_y)

/-- `BoundingRectangle::intersects`. -/
def intersects (a b : BoundingRectangle) : Bool :=
  if a.left.1 > b.right.1 ∨ b.left.1 > a.right.1 then false
  else if a.right.2 < b.left.2 ∨ b.right.2 < a.left.2 then false
  else true

/-- `RtreeGeometry` from `geometries.rs` (the uuid `id` and the weak
`parent` reference are omitted; see the module comment). -/
structure RtreeGeometry where
  coords : List Coordinates
  mbr : BoundingRectangle
  coordtype : GeometryType
deriving DecidableEq

/-- The shape classification performed inside `RtreeGeometry::new`:
fewer than 2 coordinates is a Point, first = last is a Polygon,
anything else is a Line. -/
def classify (coords : List Coordinates) : GeometryType :=
  if coords.length < 2 then GeometryType.Point
  else if coords.head? = coords.getLast? then GeometryType.Polygon
  else GeometryType.Line

/-- `RtreeGeometry::find_mbr`. For a Point it indexes `coords[0]`, which
panics on an empty sequence — modelled as `none`. -/
def find_mbr (coordtype : GeometryType) (coords : List Coordinates) :
    Option BoundingRectangle :=
  match coordtype with
  | GeometryType.Point => coords.head?.map fun c => BoundingRectangle.new c c
  | _ => some (generate_mbr coords)

/-- `RtreeGeometry::new`: classification, then MBR derivation. The only way
it can fail is the `coords[0]` panic inside `find_mbr` on an empty input. -/
def RtreeGeometry.new (coords : List Coordinates) : Option RtreeGeometry :=
  let coordtype := classify coords
  (find_mbr coordtype coords).map fun mbr =>
    { coords := coords, mbr := mbr, coordtype := coordtype }

/-- `RtreeNode` from `nodes.rs`, with the `ChildrenType` tagged union folded
into the constructors: `inner` holds `InnerNodes(Vec<TreeNode>)`, `leaf`
holds `Leafs(Vec<TreeGeometry>)`.  `max_children` is the `u8` capacity.
The uuid `id` and the weak `parent` pointer are omitted (module comment). -/
inductive RtreeNode : Type where
  | inner (children : List RtreeNode) (mbr : BoundingRectangle) (max_children : Nat)
  | leaf (children : List RtreeGeometry) (mbr : BoundingRectangle) (max_children : Nat)

/-- `RtreeObject::mbr` for nodes. -/
def RtreeNode.mbr : RtreeNode → BoundingRectangle
  | .inner _ m _ => m
  | .leaf _ m _ => m

/-- `RtreeObject::set_mbr` for nodes. -/
def RtreeNode.setMbr : RtreeNode → BoundingRectangle → RtreeNode
  | .inner ns _ c, m => .inner ns m c
  | .leaf gs _ c, m => .leaf gs m c

/-- `ChildrenType::len`. -/
def RtreeNode.childCount : RtreeNode → Nat
  | .inner ns _ _ => ns.length
  | .leaf gs _ _ => gs.length

/-- The node's capacity field. -/
def RtreeNode.capacity : RtreeNode → Nat
  | .inner _ _ c => c
  | .leaf _ _ c => c

mutual

/-- Structural size of a node: the number of nodes in its subtree.  Used as
the termination measure of `insertAux` (the stored rectangles play no part
in it, so updating an mbr keeps the size unchanged). -/
def RtreeNode.nsize : RtreeNode → Nat
  | .leaf _ _ _ => 1
  | .inner ns _ _ => 1 + RtreeNode.lsize ns

/-- Total size of a list of nodes (mutual with `RtreeNode.nsize`). -/
def RtreeNode.lsize : List RtreeNode → Nat
  | [] => 0
  | n :: ns => RtreeNode.nsize n + RtreeNode.lsize ns

end

theorem RtreeNode.nsize_setMbr (n : RtreeNode) (m : BoundingRectangle) :
    (n.setMbr m).nsize = n.nsize := by
  cases n <;> rfl

theorem RtreeNode.one_le_nsize (n : RtreeNode) : 1 ≤ n.nsize := by
  cases n <;> simp [RtreeNode.nsize]

theorem RtreeNode.nsize_lt_of_mem {n : RtreeNode} {ns : List RtreeNode}
    (h : n ∈ ns) (m : BoundingRectangle) (c : Nat) :
    n.nsize < (RtreeNode.inner ns m c).nsize := by
  simp only [RtreeNode.nsize]
  induction ns with
  | nil => cases h
  | cons hd tl ih =>
    rcases List.mem_cons.mp h with rfl | h'
    · simp [RtreeNode.lsize]
      omega
    · have := ih h'
      simp [RtreeNode.lsize] at this ⊢
      omega

/-- The default rectangle used to give total meaning to out-of-range index
lookups in the embedding (never reached by an in-range index). -/
def dRect : BoundingRectangle := BoundingRectangle.new (0, 0) (0, 0)

/-- Index scan shared by `find_least_enlargement` and `pick_next_*`:
iterate `i` over the next `fuel` indices keeping the threshold `m`
(initially `INF`) and the best index so far (initially unset), updating
both only on strict improvement `score i < m` — exactly the
`MaybeUninit`-scratch loop shape of the Rust source. -/
def idxMinGo (score : Nat → Int) : Nat → Nat → Int → Option Nat → Option Nat
  | 0, _, _, best => best
  | fuel + 1, i, m, best =>
    if score i < m then idxMinGo score fuel (i + 1) (score i) (some i)
    else idxMinGo score fuel (i + 1) m best

/-- The full scan over indices `0 … n-1`; `none` models the
`assume_init` read of scratch that was never written. -/
def idxMin (score : Nat → Int) (n : Nat) : Option Nat :=
  idxMinGo score n 0 INF none

/-- The enlargement cost computed inside `find_least_enlargement`:
`enlarged.area - node_mbr.area` where `enlarged = common_mbr([node_mbr, mbr])`. -/
def enlargement (node_mbr mbr : BoundingRectangle) : Int :=
  (common_mbr [node_mbr, mbr]).area - node_mbr.area

/-- `find_least_enlargement` from `utils.rs`, over the candidates' mbrs:
the node list enters only through each node's `mbr()`, so the embedding takes
the list of rectangles and returns the chosen index together with the
enlarged rectangle written in the same improvement branch.  `none` models the
`assume_init` undefined-behaviour path (empty list, or no enlargement ever
strictly below the `INF` threshold). -/
def find_least_enlargement (rects : List BoundingRectangle)
    (mbr : BoundingRectangle) : Option (Nat × BoundingRectangle) :=
  match idxMin (fun j => enlargement (rects.getD j dRect) mbr) rects.length with
  | none => none
  | some i => some (i, common_mbr [rects.getD i dRect, mbr])

/-- The default node for out-of-range `getD` lookups (never reached by an
in-range index). -/
def dNode : RtreeNode := RtreeNode.leaf [] dRect 0

/-- `RtreeNode::insert`, instrumented with the descent path: alongside the
updated tree it returns the list of mbrs, top-down, of the nodes strictly
below the called node on the path to the receiving leaf (each recorded as it
stands in the returned tree).  On `Leafs` children the geometry is appended
and the node's own mbr left untouched; on `InnerNodes` children the least
enlargement child is selected, its mbr overwritten with the enlarged
rectangle, and the insert recurses into it.  `none` models the
undefined-behaviour path of `find_least_enlargement`. -/
def insertAux : RtreeNode → RtreeGeometry →
    Option (RtreeNode × List BoundingRectangle)
  | .leaf gs mbr cap, geom => some (.leaf (gs ++ [geom]) mbr cap, [])
  | .inner ns mbr cap, geom =>
    match find_least_enlargement (ns.map RtreeNode.mbr) geom.mbr with
    | none => none
    | some (i, enlarged) =>
      match h : ns.get? i with
      | none => none
      | some child =>
        match insertAux (child.setMbr enlarged) geom with
        | none => none
        | some (t, rest) =>
          some (.inner (ns.set i t) mbr cap, t.mbr :: rest)
termination_by n _ => n.nsize
decreasing_by
  simp only [RtreeNode.nsize_setMbr]
  exact RtreeNode.nsize_lt_of_mem (List.get?_mem h) mbr cap

/-- `RtreeNode::insert` (the tree it leaves behind). -/
def RtreeNode.insert (n : RtreeNode) (geom : RtreeGeometry) : Option RtreeNode :=
  (insertAux n geom).map Prod.fst

/-- A split group under construction: one of the two `RtreeNode`s that
`pick_seeds` creates and the distribution loop fills.  Generic in the child
type, as the Rust `pick_seeds<T: RtreeObject>` is; `m : α → BoundingRectangle`
below plays the role of `RtreeObject::mbr`. -/
structure SplitNode (α : Type) where
  children : List α
  mbr : BoundingRectangle
  max_children : Nat
deriving DecidableEq

/-- The row of pairs `(i, i+1) … (i, n-1)` scanned by the inner loop of
`pick_seeds` for a fixed outer index `i`. -/
def rowPairs (i n : Nat) : List (Nat × Nat) :=
  (List.range' (i + 1) (n - (i + 1))).map fun j => (i, j)

/-- The rows for outer indices `i, i+1, …` (`fuel` rows): linearizes the
double loop `for i in 0..n { for j in i+1..n { … } }` of `pick_seeds`. -/
def pairsFromAux (n : Nat) : Nat → Nat → List (Nat × Nat)
  | 0, _ => []
  | fuel + 1, i => rowPairs i n ++ pairsFromAux n fuel (i + 1)

/-- All unordered index pairs `(i, j)` with `i < j < n`, in the
lexicographic order the `pick_seeds` double loop visits them. -/
def pairList (n : Nat) : List (Nat × Nat) :=
  pairsFromAux n n 0

/-- The scan at the heart of `pick_seeds`: keep the threshold `max_area`
(initially `NEGINF`) and the best pair so far (`MaybeUninit` scratch,
modelled as `Option`), updating both only when the pair's score is strictly
greater. -/
def pickPairGo (score : Nat × Nat → Int) :
    List (Nat × Nat) → Int → Option (Nat × Nat) → Option (Nat × Nat)
  | [], _, best => best
  | p :: ps, m, best =>
    if score p > m then pickPairGo score ps (score p) (some p)
    else pickPairGo score ps m best

/-- The pair of seed indices `pick_seeds` selects: the pair maximizing
`common_mbr([a.mbr, b.mbr]).area` (not Guttman's waste — the individual
areas are never subtracted), ties kept at the earliest pair.  `none` models
the `assume_init` undefined-behaviour path. -/
def pickSeedsIdx (mbrs : List BoundingRectangle) : Option (Nat × Nat) :=
  pickPairGo
    (fun p => (common_mbr [mbrs.getD p.1 dRect, mbrs.getD p.2 dRect]).area)
    (pairList mbrs.length) NEGINF none

/-- `RtreeNode::pick_seeds`: select the seed pair, `Vec::remove` the two
children (`objs.0` first, then `objs.1 - 1`), and build the two fresh
groups, each seeded with one child and carrying that child's mbr and the
original capacity. -/
def pick_seeds {α : Type} (m : α → BoundingRectangle) (cap : Nat)
    (objects : List α) : Option (SplitNode α × SplitNode α × List α) :=
  match pickSeedsIdx (objects.map m) with
  | none => none
  | some (i, j) =>
    match objects.get? i with
    | none => none
    | some obj1 =>
      match (objects.eraseIdx i).get? (j - 1) with
      | none => none
      | some obj2 =>
        some ({ children := [obj1], mbr := m obj1, max_children := cap },
              { children := [obj2], mbr := m obj2, max_children := cap },
              (objects.eraseIdx i).eraseIdx (j - 1))

/-- `RtreeNode::pick_underfull`: `peak = (M - M/2) + 1`; returns the group
whose child count equals `peak` (`some true` for the first group,
`some false` for the second), else `none`. -/
def pick_underfull {α : Type} (g1 g2 : SplitNode α) : Option Bool :=
  let max_objs := g1.max_children
  let peak := (max_objs - max_objs / 2) + 1
  if g1.children.length = peak then some true
  else if g2.children.length = peak then some false
  else none

/-- The inner loop of `validate_*_quantity`:
`for i in 0..objects.len() { let obj = objects.remove(i); … }` — removing at
a running index from a shrinking vector.  Returns the removed objects in
removal order; `none` models the `Vec::remove` out-of-bounds panic hit as
soon as `i` reaches the shrunken length. -/
def dumpAllGo {α : Type} : Nat → Nat → List α → List α → Option (List α)
  | 0, _, _, acc => some acc
  | fuel + 1, i, objs, acc =>
    match objs.get? i with
    | none => none
    | some obj => dumpAllGo fuel (i + 1) (objs.eraseIdx i) (acc ++ [obj])

/-- The whole removal loop of `validate_*_quantity` (the recomputed
`new_mbr` is bound but never stored, so the group's mbr is left alone). -/
def dumpAll {α : Type} (objs : List α) : Option (List α) :=
  dumpAllGo objs.length 0 objs []

/-- `RtreeNode::pick_next_{node,leaf}`: choose the object minimizing the
signed difference `area_1 - area_2` of the two enclosing areas (threshold
`min_d` starts at `INF`, strict improvement keeps the earliest), then
`Vec::remove` it.  `none` models the uninitialized `chosen` read on an
empty list. -/
def pick_next {α : Type} (m : α → BoundingRectangle) (g1 g2 : SplitNode α)
    (objects : List α) : Option (α × List α) :=
  match idxMin
      (fun k =>
        (common_mbr [g1.mbr, (objects.map m).getD k dRect]).area -
          (common_mbr [g2.mbr, (objects.map m).getD k dRect]).area)
      objects.length with
  | none => none
  | some k =>
    match objects.get? k with
    | none => none
    | some obj => some (obj, objects.eraseIdx k)

/-- One pass of `distribute_{nodes,leafs}`: the loop
`for i in 0..objects.len()` (the range is captured once, before the vector
shrinks).  Each iteration either hits the `validate_*_quantity` shortcut —
dumping every remaining object into the group at `peak` children without
touching its mbr, then breaking — or picks the next object and appends it to
the group `find_least_enlargement` selects (index 0 = first group),
overwriting that group's mbr with the enlarged rectangle. -/
def distributeGo {α : Type} (m : α → BoundingRectangle) :
    Nat → SplitNode α → SplitNode α → List α →
    Option (SplitNode α × SplitNode α)
  | 0, g1, g2, _ => some (g1, g2)
  | fuel + 1, g1, g2, objects =>
    match pick_underfull g1 g2 with
    | some which =>
      match dumpAll objects with
      | none => none
      | some moved =>
        if which then some ({ g1 with children := g1.children ++ moved }, g2)
        else some (g1, { g2 with children := g2.children ++ moved })
    | none =>
      match pick_next m g1 g2 objects with
      | none => none
      | some (obj, rest) =>
        match find_least_enlargement [g1.mbr, g2.mbr] (m obj) with
        | none => none
        | some (0, r) =>
          distributeGo m fuel
            { g1 with children := g1.children ++ [obj], mbr := r } g2 rest
        | some (_, r) =>
          distributeGo m fuel g1
            { g2 with children := g2.children ++ [obj], mbr := r } rest

/-- `distribute_{nodes,leafs}` entry point. -/
def distribute {α : Type} (m : α → BoundingRectangle) (g1 g2 : SplitNode α)
    (objects : List α) : Option (SplitNode α × SplitNode α) :=
  distributeGo m objects.length g1 g2 objects

/-- `RtreeSplit::execute` for `RtreeNode`: pick the seeds from the children,
distribute the rest, and return the two replacement nodes (the groups carry
the original node's children kind and capacity). -/
def RtreeNode.execute : RtreeNode → Option (RtreeNode × RtreeNode)
  | .inner ns _ cap =>
    match pick_seeds RtreeNode.mbr cap ns with
    | none => none
    | some (g1, g2, rest) =>
      (distribute RtreeNode.mbr g1 g2 rest).map fun gs =>
        (.inner gs.1.children gs.1.mbr gs.1.max_children,
         .inner gs.2.children gs.2.mbr gs.2.max_children)
  | .leaf gs _ cap =>
    match pick_seeds RtreeGeometry.mbr cap gs with
    | none => none
    | some (g1, g2, rest) =>
      (distribute RtreeGeometry.mbr g1 g2 rest).map fun pr =>
        (.leaf pr.1.children pr.1.mbr pr.1.max_children,
         .leaf pr.2.children pr.2.mbr pr.2.max_children)

/-- Minimum fill `m = ceil(M / 2)` from the spec. -/
def minFill (M : Nat) : Nat := (M + 1) / 2

/-- The spec's containment relation between rectangles: `outer` encloses
`inner` when `outer.left` is componentwise ≤ `inner.left` and
`outer.right` componentwise ≥ `inner.right`. -/
def encloses (outer inner : BoundingRectangle) : Bool :=
  decide (outer.left.1 ≤ inner.left.1) && decide (outer.left.2 ≤ inner.left.2) &&
  decide (inner.right.1 ≤ outer.right.1) && decide (inner.right.2 ≤ outer.right.2)

/-- Guttman's waste of a pair, as the spec words it:
`enclosing(a, b).area − a.area − b.area`.  Modelled from the spec for
comparison with the source's seed scoring, which maximizes the raw
enclosing area instead. -/
def specWaste (a b : BoundingRectangle) : Int :=
  (common_mbr [a, b]).area - a.area - b.area

/-- The default geometry for out-of-range `getD` lookups (never reached by
an in-range index). -/
def dGeom : RtreeGeometry :=
  { coords := [], mbr := dRect, coordtype := GeometryType.Point }

/-- The score `pick_seeds` assigns an index pair: the area of the enclosing
rectangle of the two children's mbrs (stated over the original object list). -/
def seedScore (objects : List RtreeGeometry) (p : Nat × Nat) : Int :=
  (common_mbr [(objects.map RtreeGeometry.mbr).getD p.1 dRect,
               (objects.map RtreeGeometry.mbr).getD p.2 dRect]).area

/-- A point entry exactly as `RtreeGeometry::new(vec!((x, y)))` builds it. -/
def pointGeom (x y : Int) : RtreeGeometry :=
  { coords := [(x, y)], mbr := BoundingRectangle.new (x, y) (x, y),
    coordtype := GeometryType.Point }

/-- A line entry exactly as `RtreeGeometry::new(vec!(l, r))` builds it for
`l < r` componentwise. -/
def lineGeom (l r : Coordinates) : RtreeGeometry :=
  { coords := [l, r], mbr := BoundingRectangle.new l r,
    coordtype := GeometryType.Line }

/-- C1's failing input: a leaf node of capacity `M = 4` holding `M + 1 = 5`
point entries. -/
def c1Node : RtreeNode :=
  RtreeNode.leaf
    [pointGeom 0 0, pointGeom 1 1, pointGeom 2 2, pointGeom 3 3, pointGeom 10 10]
    (BoundingRectangle.new (0, 0) (10, 10)) 4

/-- The first group `execute` actually produces on `c1Node`: four children,
with an mbr that was never updated for the dumped child `(3, 3)`. -/
def c1GroupA : RtreeNode :=
  RtreeNode.leaf [pointGeom 0 0, pointGeom 1 1, pointGeom 2 2, pointGeom 3 3]
    (BoundingRectangle.new (0, 0) (2, 2)) 4

/-- The second group `execute` actually produces on `c1Node`: one child,
below the minimum fill of 2. -/
def c1GroupB : RtreeNode :=
  RtreeNode.leaf [pointGeom 10 10] (BoundingRectangle.new (10, 10) (10, 10)) 4

/-- C2's starting node: an empty leaf of capacity 4. -/
def c2Leaf : RtreeNode := RtreeNode.leaf [] (BoundingRectangle.new (1, 1) (1, 1)) 4

/-- The single overflowing leaf the five insertions actually leave behind. -/
def c2Result : RtreeNode :=
  RtreeNode.leaf
    [pointGeom 1 1, pointGeom 2 2, pointGeom 3 3, pointGeom 4 4, pointGeom 5 5]
    (BoundingRectangle.new (1, 1) (1, 1)) 4

/-- C3's counterexample input: an inner node over one empty leaf, both with
mbr `(0,0)-(1,1)`. -/
def c3Node : RtreeNode :=
  RtreeNode.inner [RtreeNode.leaf [] (BoundingRectangle.new (0, 0) (1, 1)) 4]
    (BoundingRectangle.new (0, 0) (1, 1)) 4

/-- The tree `insert` leaves behind on `c3Node` with the entry at `(5, 5)`:
the child's mbr was enlarged, the called node's own mbr was not. -/
def c3Result : RtreeNode :=
  RtreeNode.inner
    [RtreeNode.leaf [pointGeom 5 5] (BoundingRectangle.new (0, 0) (5, 5)) 4]
    (BoundingRectangle.new (0, 0) (1, 1)) 4

/-- C4's two candidate child rectangles: both enclose the entry `(0,0)-(1,1)`
with zero enlargement, but the second has the smaller resulting area. -/
def c4RectA : BoundingRectangle := BoundingRectangle.new (0, 0) (2, 2)

/-- See `c4RectA`. -/
def c4RectB : BoundingRectangle := BoundingRectangle.new (0, 0) (1, 1)

/-- C4's concrete inner node: two leaf children with mbrs `c4RectA` and
`c4RectB`. -/
def c4Node : RtreeNode :=
  RtreeNode.inner
    [RtreeNode.leaf [] c4RectA 4, RtreeNode.leaf [] c4RectB 4]
    (BoundingRectangle.new (0, 0) (2, 2)) 4

/-- C5's three objects: a large rectangle and two tiny nearby ones.
The pair (big, tiny) maximizes the raw enclosing area, but the tiny pair
maximizes Guttman's waste. -/
def c5Geoms : List RtreeGeometry :=
  [lineGeom (0, 0) (10, 10), lineGeom (1, 1) (2, 2), lineGeom (3, 3) (4, 4)]

/-- Characterization of the strict-improvement minimum scan: over the index
window `[i, i + fuel)` it either never improves on the threshold `m` and
returns `best` unchanged, or it returns the earliest index of the window
achieving the window's minimum score, which is strictly below `m`. -/
theorem idxMinGo_spec (score : Nat → Int) :
    ∀ fuel i m best,
      (idxMinGo score fuel i m best = best ∧
        ∀ j, i ≤ j → j < i + fuel → m ≤ score j) ∨
      (∃ k, i ≤ k ∧ k < i + fuel ∧
        idxMinGo score fuel i m best = some k ∧ score k < m ∧
        (∀ j, i ≤ j → j < k → score k < score j) ∧
        (∀ j, i ≤ j → j < i + fuel → score k ≤ score j)) := by
  intro fuel
  induction fuel with
  | zero =>
    intro i m best
    left
    exact ⟨rfl, fun j h1 h2 => absurd (lt_of_le_of_lt h1 h2) (by omega)⟩
  | succ fuel ih =>
    intro i m best
    by_cases hlt : score i < m
    · rcases ih (i + 1) (score i) (some i) with ⟨heq, hall⟩ | ⟨k, hk1, hk2, heq, hks, hmin1, hmin2⟩
      · right
        refine ⟨i, le_refl i, by omega, by simpa [idxMinGo, hlt] using heq, hlt, ?_, ?_⟩
        · intro j h1 h2; omega
        · intro j h1 h2
          rcases Nat.eq_or_lt_of_le h1 with rfl | h1'
          · exact le_refl _
          · exact hall j h1' (by omega)
      · right
        refine ⟨k, by omega, by omega, by simpa [idxMinGo, hlt] using heq, by omega, ?_, ?_⟩
        · intro j h1 h2
          rcases Nat.eq_or_lt_of_le h1 with rfl | h1'
          · exact hks
          · exact hmin1 j h1' h2
        · intro j h1 h2
          rcases Nat.eq_or_lt_of_le h1 with rfl | h1'
          · exact le_of_lt hks
          · exact hmin2 j h1' (by omega)
    · rcases ih (i + 1) m best with ⟨heq, hall⟩ | ⟨k, hk1, hk2, heq, hks, hmin1, hmin2⟩
      · left
        refine ⟨by simpa [idxMinGo, hlt] using heq, ?_⟩
        intro j h1 h2
        rcases Nat.eq_or_lt_of_le h1 with rfl | h1'
        · omega
        · exact hall j h1' (by omega)
      · right
        refine ⟨k, by omega, by omega, by simpa [idxMinGo, hlt] using heq, hks, ?_, ?_⟩
        · intro j h1 h2
          rcases Nat.eq_or_lt_of_le h1 with rfl | h1'
          · omega
          · exact hmin1 j h1' h2
        · intro j h1 h2
          rcases Nat.eq_or_lt_of_le h1 with rfl | h1'
          · omega
          · exact hmin2 j h1' (by omega)

/-- When the full scan returns an index, it is the earliest index achieving
the minimum score over `0 … n-1`, with score strictly below `INF`. -/
theorem idxMin_some (score : Nat → Int) (n : Nat) (k : Nat)
    (h : idxMin score n = some k) :
    k < n ∧ score k < INF ∧
      (∀ j, j < k → score k < score j) ∧
      (∀ j, j < n → score k ≤ score j) := by
  rcases idxMinGo_spec score n 0 INF none with ⟨heq, _⟩ | ⟨k', _, hk2, heq, hks, hmin1, hmin2⟩
  · rw [idxMin] at h; rw [heq] at h; cases h
  · rw [idxMin] at h; rw [heq] at h
    cases h
    exact ⟨by omega, hks,
      fun j hj => hmin1 j (Nat.zero_le j) hj,
      fun j hj => hmin2 j (Nat.zero_le j) (by omega)⟩

/-- Characterization of the strict-improvement maximum scan of
`pick_seeds`: over the remaining pair list it either never improves on the
threshold `m` and returns `best` unchanged, or it returns the earliest pair
of the list achieving the list's maximum score, strictly above `m`. -/
theorem pickPairGo_spec (score : Nat × Nat → Int) :
    ∀ (l : List (Nat × Nat)) (m : Int) (best : Option (Nat × Nat)),
      (pickPairGo score l m best = best ∧ ∀ q ∈ l, score q ≤ m) ∨
      (∃ l1 p l2, l = l1 ++ p :: l2 ∧ pickPairGo score l m best = some p ∧
        m < score p ∧ (∀ q ∈ l1, score q < score p) ∧
        (∀ q ∈ l, score q ≤ score p)) := by
  intro l
  induction l with
  | nil =>
    intro m best
    left
    exact ⟨rfl, fun q hq => absurd hq (List.not_mem_nil q)⟩
  | cons hd tl ih =>
    intro m best
    by_cases hgt : score hd > m
    · rcases ih (score hd) (some hd) with ⟨heq, hall⟩ | ⟨l1, p, l2, hdec, heq, hm, hbefore, hle⟩
      · right
        refine ⟨[], hd, tl, rfl, by simpa [pickPairGo, hgt] using heq, hgt, ?_, ?_⟩
        · intro q hq; cases hq
        · intro q hq
          rcases List.mem_cons.mp hq with rfl | hq'
          · exact le_refl _
          · exact hall q hq'
      · right
        refine ⟨hd :: l1, p, l2, by rw [hdec, List.cons_append], by simpa [pickPairGo, hgt] using heq,
          lt_trans hgt hm, ?_, ?_⟩
        · intro q hq
          rcases List.mem_cons.mp hq with rfl | hq'
          · exact hm
          · exact hbefore q hq'
        · intro q hq
          rcases List.mem_cons.mp hq with rfl | hq'
          · exact le_of_lt hm
          · exact hle q (hdec ▸ hq')
    · rcases ih m best with ⟨heq, hall⟩ | ⟨l1, p, l2, hdec, heq, hm, hbefore, hle⟩
      · left
        refine ⟨by simpa [pickPairGo, hgt] using heq, ?_⟩
        intro q hq
        rcases List.mem_cons.mp hq with rfl | hq'
        · omega
        · exact hall q hq'
      · right
        refine ⟨hd :: l1, p, l2, by rw [hdec, List.cons_append], by simpa [pickPairGo, hgt] using heq,
          hm, ?_, ?_⟩
        · intro q hq
          rcases List.mem_cons.mp hq with rfl | hq'
          · omega
          · exact hbefore q hq'
        · intro q hq
          rcases List.mem_cons.mp hq with rfl | hq'
          · omega
          · exact hle q (hdec ▸ hq')

/-- Membership in a row: `(a, b) ∈ rowPairs i n` iff `a = i < b < n`. -/
theorem mem_rowPairs {q : Nat × Nat} {i n : Nat} :
    q ∈ rowPairs i n ↔ q.1 = i ∧ i < q.2 ∧ q.2 < n := by
  simp only [rowPairs, List.mem_map, List.mem_range'_1]
  constructor
  · rintro ⟨j, ⟨h1, h2⟩, rfl⟩
    refine ⟨rfl, by omega, by omega⟩
  · rintro ⟨h1, h2, h3⟩
    exact ⟨q.2, ⟨by omega, by omega⟩, by rw [← h1]⟩

/-- Membership in the linearized double loop from outer index `i` on. -/
theorem mem_pairsFromAux {q : Nat × Nat} {n : Nat} :
    ∀ {fuel i : Nat},
      q ∈ pairsFromAux n fuel i ↔
        i ≤ q.1 ∧ q.1 < i + fuel ∧ q.1 < q.2 ∧ q.2 < n := by
  intro fuel
  induction fuel with
  | zero =>
    intro i
    constructor
    · intro h; exact absurd h (List.not_mem_nil q)
    · rintro ⟨h1, h2, -, -⟩; exact absurd h2 (by omega)
  | succ fuel ih =>
    intro i
    simp only [pairsFromAux, List.mem_append, mem_rowPairs, ih]
    omega

/-- Membership in the pair list: exactly the pairs `(a, b)` with
`a < b < n`. -/
theorem mem_pairList {q : Nat × Nat} {n : Nat} :
    q ∈ pairList n ↔ q.1 < q.2 ∧ q.2 < n := by
  simp only [pairList, mem_pairsFromAux]
  omega

/-- The index-pair order the double loop visits pairs in. -/
def lexLt (p q : Nat × Nat) : Prop :=
  p.1 < q.1 ∨ (p.1 = q.1 ∧ p.2 < q.2)

/-- The double loop visits pairs in strictly increasing `lexLt` order. -/
theorem pairwise_pairsFromAux (n : Nat) :
    ∀ fuel i, (pairsFromAux n fuel i).Pairwise lexLt := by
  intro fuel
  induction fuel with
  | zero => intro i; simp [pairsFromAux]
  | succ fuel ih =>
    intro i
    rw [pairsFromAux, List.pairwise_append]
    refine ⟨?_, ih (i + 1), ?_⟩
    · refine List.Pairwise.map (fun j => (i, j)) ?_ (List.pairwise_lt_range' _ _)
      · intro a b hab
        exact Or.inr ⟨rfl, hab⟩
    · intro p hp q hq
      have h1 := mem_rowPairs.mp hp
      have h2 := mem_pairsFromAux.mp hq
      exact Or.inl (by omega)

/-- The pair list is sorted in the loop's lexicographic order. -/
theorem pairwise_pairList (n : Nat) : (pairList n).Pairwise lexLt :=
  pairwise_pairsFromAux n n 0

theorem BoundingRectangle.new_left (l r : Coordinates) :
    (BoundingRectangle.new l r).left = l := rfl

theorem BoundingRectangle.new_right (l r : Coordinates) :
    (BoundingRectangle.new l r).right = r := rfl

theorem BoundingRectangle.new_area (l r : Coordinates) :
    (BoundingRectangle.new l r).area = count_area l r := rfl

/-- One `common_mbr` iteration, written with `min`/`max`: the four
independent `if`s update each tracker to the better of the rectangle's
coordinate and the tracker. -/
theorem common_mbr_step_eq (s : ScanState) (r : BoundingRectangle) :
    common_mbr_step s r =
      { min_x := min r.left.1 s.min_x, min_y := min r.left.2 s.min_y,
        max_x := max r.right.1 s.max_x, max_y := max r.right.2 s.max_y } := by
  cases s
  simp only [common_mbr_step]
  split_ifs <;> simp_all <;> omega

/-- `common_mbr` of two rectangles in closed form. -/
theorem common_mbr_two_eq (a b : BoundingRectangle) :
    common_mbr [a, b] = BoundingRectangle.new
      (min b.left.1 (min a.left.1 INF), min b.left.2 (min a.left.2 INF))
      (max b.right.1 (max a.right.1 NEGINF), max b.right.2 (max a.right.2 NEGINF)) := by
  simp [common_mbr, common_mbr_step_eq]

/-- Corner bounds of `common_mbr` on a two-element list: the result's left
corner is componentwise ≤ both inputs' left corners and its right corner
componentwise ≥ both inputs' right corners. -/
theorem common_mbr_two_bounds (a b : BoundingRectangle) :
    (common_mbr [a, b]).left.1 ≤ a.left.1 ∧ (common_mbr [a, b]).left.2 ≤ a.left.2 ∧
    (common_mbr [a, b]).left.1 ≤ b.left.1 ∧ (common_mbr [a, b]).left.2 ≤ b.left.2 ∧
    a.right.1 ≤ (common_mbr [a, b]).right.1 ∧ a.right.2 ≤ (common_mbr [a, b]).right.2 ∧
    b.right.1 ≤ (common_mbr [a, b]).right.1 ∧ b.right.2 ≤ (common_mbr [a, b]).right.2 := by
  rw [common_mbr_two_eq]
  simp only [BoundingRectangle.new]
  refine ⟨?_, ?_, ?_, ?_, ?_, ?_, ?_, ?_⟩ <;> omega

/-- The area stored by `common_mbr` is the product of its corner extents. -/
theorem common_mbr_area (l : List BoundingRectangle) :
    (common_mbr l).area =
      ((common_mbr l).right.1 - (common_mbr l).left.1) *
        ((common_mbr l).right.2 - (common_mbr l).left.2) := rfl

/-- `common_mbr` of two rectangles encloses the second one (needed for the
descent path invariant: the enlarged child mbr encloses the entry's mbr). -/
theorem common_mbr_encloses_snd (a b : BoundingRectangle) :
    encloses (common_mbr [a, b]) b = true := by
  have h := common_mbr_two_bounds a b
  simp only [encloses, Bool.and_eq_true, decide_eq_true_eq]
  exact ⟨⟨⟨h.2.2.1, h.2.2.2.1⟩, h.2.2.2.2.2.2.1⟩, h.2.2.2.2.2.2.2⟩

/-- Removing index `i` shifts every later index down by one:
`(l.eraseIdx i)[j-1] = l[j]` for `i < j`.  This is why `pick_seeds`'s second
`Vec::remove(objs.1 - 1)` removes the child originally at index `objs.1`. -/
theorem get?_eraseIdx_of_lt {α : Type} :
    ∀ (l : List α) (i j : Nat), i < j → (l.eraseIdx i).get? (j - 1) = l.get? j := by
  intro l
  induction l with
  | nil => intro i j _; simp [List.eraseIdx]
  | cons x xs ih =>
    intro i j hij
    cases i with
    | zero =>
      cases j with
      | zero => omega
      | succ j' => simp [List.eraseIdx]
    | succ i' =>
      cases j with
      | zero => omega
      | succ j' =>
        have hj' : 1 ≤ j' := by omega
        simp only [List.eraseIdx, Nat.succ_sub_one]
        cases j' with
        | zero => omega
        | succ j'' =>
          have := ih i' (j'' + 1) (by omega)
          simpa [Nat.succ_sub_one] using this

/-- `getD` over a mapped list agrees with mapping `getD`, for in-range
indices. -/
theorem getD_map_eq {α β : Type} (f : α → β) (l : List α) (i : Nat)
    (hi : i < l.length) (d : β) (d' : α) :
    (l.map f).getD i d = f (l.getD i d') := by
  induction l generalizing i with
  | nil => cases hi
  | cons x xs ih =>
    cases i with
    | zero => rfl
    | succ i' => exact ih i' (by simpa using hi)

/-- `get?` returns `getD` for in-range indices. -/
theorem get?_eq_getD {α : Type} (l : List α) (i : Nat) (hi : i < l.length)
    (d : α) : l.get? i = some (l.getD i d) := by
  induction l generalizing i with
  | nil => cases hi
  | cons x xs ih =>
    cases i with
    | zero => rfl
    | succ i' => exact ih i' (by simpa using hi)

/-- Unfolding equation of `insertAux` on a leaf node: append and return,
with no mbr update and no capacity check. -/
theorem insertAux_leaf (gs : List RtreeGeometry) (mbr : BoundingRectangle)
    (cap : Nat) (g : RtreeGeometry) :
    insertAux (.leaf gs mbr cap) g = some (.leaf (gs ++ [g]) mbr cap, []) := by
  simp only [insertAux]

/-- Unfolding equation of `insertAux` on an inner node once the selection,
the lookup of the chosen child and the recursive insert are known: the
chosen child's mbr is overwritten with the enlarged rectangle before the
recursive call, and the called node's own mbr is left unchanged. -/
theorem insertAux_inner_eq (ns : List RtreeNode) (mbr : BoundingRectangle)
    (cap : Nat) (g : RtreeGeometry) (i : Nat) (r : BoundingRectangle)
    (child t : RtreeNode) (rest : List BoundingRectangle)
    (h1 : find_least_enlargement (ns.map RtreeNode.mbr) g.mbr = some (i, r))
    (h2 : ns.get? i = some child)
    (h3 : insertAux (child.setMbr r) g = some (t, rest)) :
    insertAux (.inner ns mbr cap) g =
      some (.inner (ns.set i t) mbr cap, t.mbr :: rest) := by
  simp only [insertAux, h1]
  split
  next heq => rw [h2] at heq; cases heq
  next child' heq =>
    rw [h2] at heq
    cases heq
    simp only [h3]

/-- Companion to `insertAux_inner_eq`: when the recursive insert into the
chosen child fails, the whole insert fails. -/
theorem insertAux_inner_none (ns : List RtreeNode) (mbr : BoundingRectangle)
    (cap : Nat) (g : RtreeGeometry) (i : Nat) (r : BoundingRectangle)
    (child : RtreeNode)
    (h1 : find_least_enlargement (ns.map RtreeNode.mbr) g.mbr = some (i, r))
    (h2 : ns.get? i = some child)
    (h3 : insertAux (child.setMbr r) g = none) :
    insertAux (.inner ns mbr cap) g = none := by
  simp only [insertAux, h1]
  split
  next heq => rfl
  next child' heq =>
    rw [h2] at heq
    cases heq
    simp only [h3]

/-- What a successful `insert` guarantees: the called node's own mbr is
returned unchanged, and every recorded descent-path mbr (the mbrs of the
nodes strictly below the called node on the path to the receiving leaf, as
they stand in the result tree) encloses the inserted entry's mbr. -/
theorem insertAux_spec :
    ∀ (k : Nat) (n : RtreeNode), n.nsize ≤ k →
      ∀ (g : RtreeGeometry) (t : RtreeNode) (rs : List BoundingRectangle),
        insertAux n g = some (t, rs) →
        t.mbr = n.mbr ∧ ∀ r ∈ rs, encloses r g.mbr = true := by
  intro k
  induction k with
  | zero =>
    intro n hk
    exact absurd (le_trans (RtreeNode.one_le_nsize n) hk) (by omega)
  | succ k ih =>
    intro n hk g t rs h
    cases n with
    | leaf gs mbr cap =>
      simp only [insertAux] at h
      cases h
      exact ⟨rfl, fun r hr => absurd hr (List.not_mem_nil r)⟩
    | inner ns mbr cap =>
      simp only [insertAux] at h
      split at h
      · cases h
      next i enlarged hfle =>
        split at h
        · cases h
        next child hget =>
          split at h
          · cases h
          next t2 rest hrec =>
            cases h
            have hsz : (child.setMbr enlarged).nsize ≤ k := by
              have h1 := RtreeNode.nsize_lt_of_mem (List.get?_mem hget) mbr cap
              have h2 := RtreeNode.nsize_setMbr child enlarged
              omega
            have hrecspec := ih (child.setMbr enlarged) hsz g t2 rest hrec
            refine ⟨rfl, ?_⟩
            intro r hr
            rcases List.mem_cons.mp hr with rfl | hr'
            · have henl : enlarged = common_mbr [child.mbr, g.mbr] := by
                simp only [find_least_enlargement] at hfle
                split at hfle
                · cases hfle
                next j hidx =>
                  have hj := idxMin_some _ _ j hidx
                  cases hfle
                  have hlen : i < ns.length := by simpa using hj.1
                  rw [getD_map_eq RtreeNode.mbr ns i hlen dRect dNode]
                  congr 1
                  have := get?_eq_getD ns i hlen dNode
                  rw [this] at hget
                  cases hget
                  rfl
              rw [hrecspec.1, henl]
              cases child <;> exact common_mbr_encloses_snd _ _
            · exact hrecspec.2 r hr'

/-- The full scan returns an index exactly when some index scores strictly
below the `INF` threshold (in particular never on an empty range). -/
theorem idxMin_isSome_iff (score : Nat → Int) (n : Nat) :
    (idxMin score n).isSome = true ↔ ∃ j, j < n ∧ score j < INF := by
  constructor
  · intro h
    rcases ho : idxMin score n with _ | k
    · rw [ho] at h; cases h
    · rcases idxMin_some score n k ho with ⟨h1, h2, _, _⟩
      exact ⟨k, h1, h2⟩
  · rintro ⟨j, hj, hjs⟩
    rcases idxMinGo_spec score n 0 INF none with ⟨_, hall⟩ | ⟨k, _, _, heq, _, _, _⟩
    · exact absurd (hall j (Nat.zero_le j) (by omega)) (not_le.mpr hjs)
    · rw [idxMin, heq]; rfl

/-- C6: `generate_mbr` does not return the componentwise minimum/maximum for
every non-empty coordinate sequence.  On the descending sequence
`[(3,3), (2,2)]` each coordinate sets a new running minimum, so the
`else if` branch that tracks the maximum never runs and the right corner is
left at the `NEGINF` sentinel instead of the true maximum `(3, 3)`.  The
spec's closed-ring example happens to avoid the bug (third conjunct). -/
theorem c6_generate_mbr_skips_max_on_new_min :
    generate_mbr [((3 : Int), (3 : Int)), ((2 : Int), (2 : Int))] =
      BoundingRectangle.new (2, 2) (NEGINF, NEGINF) ∧
    (generate_mbr [((3 : Int), (3 : Int)), ((2 : Int), (2 : Int))]).right ≠
      ((3 : Int), (3 : Int)) ∧
    generate_mbr [((2 : Int), (2 : Int)), (6, 2), (6, 4), (2, 4), (2, 2)] =
      BoundingRectangle.new (2, 2) (6, 4) := by
  refine ⟨by decide, by decide, by decide⟩

/-- C7: constructing a geometry entry fails exactly on the empty coordinate
sequence (`find_mbr` indexes `coords[0]` in the Point branch, which is the
only failure point), and succeeds on every non-empty sequence. -/
theorem c7_geometry_construction_fails_iff_empty :
    ∀ coords : List Coordinates, RtreeGeometry.new coords = none ↔ coords = [] := by
  intro coords
  cases coords with
  | nil => simp [RtreeGeometry.new, classify, find_mbr]
  | cons c cs =>
    simp only [RtreeGeometry.new, Option.map_eq_none']
    constructor
    · intro h
      cases hcl : classify (c :: cs) <;> rw [hcl] at h <;> simp [find_mbr] at h
    · intro h; cases h

/-- C8: `common_mbr` of two well-formed rectangles contains both of them
(left corner componentwise ≤ both lefts, right corner componentwise ≥ both
rights), and its area is at least either input's area. -/
theorem c8_common_mbr_contains_both :
    ∀ al ar bl br : Coordinates,
      al.1 ≤ ar.1 → al.2 ≤ ar.2 → bl.1 ≤ br.1 → bl.2 ≤ br.2 →
      encloses (common_mbr [BoundingRectangle.new al ar, BoundingRectangle.new bl br])
        (BoundingRectangle.new al ar) = true ∧
      encloses (common_mbr [BoundingRectangle.new al ar, BoundingRectangle.new bl br])
        (BoundingRectangle.new bl br) = true ∧
      (BoundingRectangle.new al ar).area ≤
        (common_mbr [BoundingRectangle.new al ar, BoundingRectangle.new bl br]).area ∧
      (BoundingRectangle.new bl br).area ≤
        (common_mbr [BoundingRectangle.new al ar, BoundingRectangle.new bl br]).area := by
  intro al ar bl br h1 h2 h3 h4
  have hb := common_mbr_two_bounds (BoundingRectangle.new al ar) (BoundingRectangle.new bl br)
  have harea := common_mbr_area [BoundingRectangle.new al ar, BoundingRectangle.new bl br]
  simp only [BoundingRectangle.new_left, BoundingRectangle.new_right] at hb
  refine ⟨?_, ?_, ?_, ?_⟩
  · simp only [encloses, Bool.and_eq_true, decide_eq_true_eq,
      BoundingRectangle.new_left, BoundingRectangle.new_right]
    exact ⟨⟨⟨hb.1, hb.2.1⟩, hb.2.2.2.2.1⟩, hb.2.2.2.2.2.1⟩
  · simp only [encloses, Bool.and_eq_true, decide_eq_true_eq,
      BoundingRectangle.new_left, BoundingRectangle.new_right]
    exact ⟨⟨⟨hb.2.2.1, hb.2.2.2.1⟩, hb.2.2.2.2.2.2.1⟩, hb.2.2.2.2.2.2.2⟩
  · rw [harea, BoundingRectangle.new_area]
    unfold count_area
    exact mul_le_mul (by omega) (by omega) (by omega) (by omega)
  · rw [harea, BoundingRectangle.new_area]
    unfold count_area
    exact mul_le_mul (by omega) (by omega) (by omega) (by omega)

/-- C8 witness at the spec's sample rectangles `(2,1)-(5,3)` and
`(4,2)-(7,4)`. -/
theorem c8_common_mbr_contains_both_witness :
    encloses (common_mbr [BoundingRectangle.new (2, 1) (5, 3), BoundingRectangle.new (4, 2) (7, 4)])
      (BoundingRectangle.new (2, 1) (5, 3)) = true ∧
    encloses (common_mbr [BoundingRectangle.new (2, 1) (5, 3), BoundingRectangle.new (4, 2) (7, 4)])
      (BoundingRectangle.new (4, 2) (7, 4)) = true ∧
    (BoundingRectangle.new (2, 1) (5, 3)).area ≤
      (common_mbr [BoundingRectangle.new (2, 1) (5, 3), BoundingRectangle.new (4, 2) (7, 4)]).area ∧
    (BoundingRectangle.new (4, 2) (7, 4)).area ≤
      (common_mbr [BoundingRectangle.new (2, 1) (5, 3), BoundingRectangle.new (4, 2) (7, 4)]).area :=
  c8_common_mbr_contains_both (2, 1) (5, 3) (4, 2) (7, 4)
    (by decide) (by decide) (by decide) (by decide)

/-- C9: `intersects` is symmetric; it is `false` exactly when the two
projections fail to overlap on some axis (boundary touching counts as
overlap); and the spec's boundary-touching example intersects. -/
theorem c9_intersects_symmetric_touching :
    ∀ a b : BoundingRectangle,
      intersects a b = intersects b a ∧
      (intersects a b = false ↔
        (a.left.1 > b.right.1 ∨ b.left.1 > a.right.1 ∨
         a.right.2 < b.left.2 ∨ b.right.2 < a.left.2)) ∧
      intersects (BoundingRectangle.new (2, 1) (5, 3))
        (BoundingRectangle.new (5, 1) (7, 3)) = true := by
  intro a b
  refine ⟨?_, ?_, by decide⟩
  · simp only [intersects]
    split_ifs <;> first | rfl | omega
  · simp only [intersects]
    split_ifs <;> simp <;> omega

/-- C1: on a capacity-4 leaf holding the five points
`(0,0) (1,1) (2,2) (3,3) (10,10)` the Split Engine returns a 4/1 split: the
second group has 1 child, below the minimum fill `m = 2`, and the first
group's mbr `(0,0)-(2,2)` does not enclose its own child at `(3,3)` (the
`validate_leafs_quantity` shortcut dumped it without updating the mbr).
Total children are conserved and the groups are disjoint, but the claim's
minimum-fill and enclosure postconditions fail. -/
theorem c1_split_violates_min_fill_and_enclosure :
    RtreeNode.execute c1Node = some (c1GroupA, c1GroupB) ∧
    c1Node.childCount = c1Node.capacity + 1 ∧
    c1GroupA.childCount = 4 ∧ c1GroupB.childCount = 1 ∧
    minFill c1Node.capacity = 2 ∧
    c1GroupB.childCount < minFill c1Node.capacity ∧
    pointGeom 3 3 ∈ [pointGeom 0 0, pointGeom 1 1, pointGeom 2 2, pointGeom 3 3] ∧
    encloses c1GroupA.mbr (pointGeom 3 3).mbr = false := by
  refine ⟨by rfl, by rfl, by rfl, by rfl, by rfl, by decide, by simp, by decide⟩

/-- C2: the five insertions of the spec's end-to-end scenario into an empty
capacity-4 leaf all succeed, but `insert` never invokes the Split Engine:
the result is still the single original leaf, now holding 5 > 4 children.
The first five conjuncts tie the five point entries to
`RtreeGeometry::new`. -/
theorem c2_insert_never_invokes_split :
    RtreeGeometry.new [((1 : Int), (1 : Int))] = some (pointGeom 1 1) ∧
    RtreeGeometry.new [((2 : Int), (2 : Int))] = some (pointGeom 2 2) ∧
    RtreeGeometry.new [((3 : Int), (3 : Int))] = some (pointGeom 3 3) ∧
    RtreeGeometry.new [((4 : Int), (4 : Int))] = some (pointGeom 4 4) ∧
    RtreeGeometry.new [((5 : Int), (5 : Int))] = some (pointGeom 5 5) ∧
    ((RtreeNode.insert c2Leaf (pointGeom 1 1)).bind fun t1 =>
     (RtreeNode.insert t1 (pointGeom 2 2)).bind fun t2 =>
     (RtreeNode.insert t2 (pointGeom 3 3)).bind fun t3 =>
     (RtreeNode.insert t3 (pointGeom 4 4)).bind fun t4 =>
      RtreeNode.insert t4 (pointGeom 5 5)) = some c2Result ∧
    c2Result.childCount = 5 ∧
    c2Result.capacity = 4 ∧
    c2Result.capacity < c2Result.childCount := by
  refine ⟨rfl, rfl, rfl, rfl, rfl, ?_, rfl, rfl, by decide⟩
  simp only [c2Leaf, RtreeNode.insert, insertAux_leaf, Option.map_some',
    Option.some_bind, List.nil_append]
  rfl

/-- C3 counterexample: `insert` succeeds on the concrete inner node
`c3Node` (mbr `(0,0)-(1,1)`) with the entry at `(5,5)`, yet the mbr of the
node `insert` was called on does not enclose the entry's mbr afterwards —
`insert` never touches the called node's own mbr. -/
theorem c3_called_node_mbr_not_enclosing :
    RtreeNode.insert c3Node (pointGeom 5 5) = some c3Result ∧
    c3Result.mbr = c3Node.mbr ∧
    encloses c3Result.mbr (pointGeom 5 5).mbr = false := by
  refine ⟨?_, by rfl, by decide⟩
  have h3 : insertAux ((RtreeNode.leaf [] (BoundingRectangle.new (0, 0) (1, 1)) 4).setMbr
      (BoundingRectangle.new (0, 0) (5, 5))) (pointGeom 5 5) =
      some (.leaf [pointGeom 5 5] (BoundingRectangle.new (0, 0) (5, 5)) 4, []) := by
    simp only [RtreeNode.setMbr, insertAux, List.nil_append]
  have h := insertAux_inner_eq [RtreeNode.leaf [] (BoundingRectangle.new (0, 0) (1, 1)) 4]
    (BoundingRectangle.new (0, 0) (1, 1)) 4 (pointGeom 5 5) 0
    (BoundingRectangle.new (0, 0) (5, 5))
    (RtreeNode.leaf [] (BoundingRectangle.new (0, 0) (1, 1)) 4)
    (RtreeNode.leaf [pointGeom 5 5] (BoundingRectangle.new (0, 0) (5, 5)) 4) []
    (by decide) (by rfl) h3
  rw [RtreeNode.insert, c3Node, h]
  rfl

/-- C3 (amended): after a successful `insert`, the mbr of every node
*strictly below* the called node on the descent path (the recorded path
mbrs) encloses the inserted entry's mbr; the called node's own mbr is
returned unchanged — updating it is the caller's responsibility, so it need
not enclose the new entry. -/
theorem c3_descent_path_encloses_entry :
    ∀ (n : RtreeNode) (g : RtreeGeometry) (t : RtreeNode)
      (rs : List BoundingRectangle),
      insertAux n g = some (t, rs) →
      t.mbr = n.mbr ∧ ∀ r ∈ rs, encloses r g.mbr = true := by
  intro n g t rs h
  exact insertAux_spec n.nsize n (le_refl _) g t rs h

/-- C3 witness: the amended theorem applied at `c3Node` with the entry at
`(5,5)`; the one path mbr `(0,0)-(5,5)` encloses the entry. -/
theorem c3_descent_path_encloses_entry_witness :
    c3Result.mbr = c3Node.mbr ∧
    encloses (BoundingRectangle.new (0, 0) (5, 5)) (pointGeom 5 5).mbr = true := by
  have hrun : insertAux c3Node (pointGeom 5 5) =
      some (c3Result, [BoundingRectangle.new (0, 0) (5, 5)]) := by
    have h3 : insertAux ((RtreeNode.leaf [] (BoundingRectangle.new (0, 0) (1, 1)) 4).setMbr
        (BoundingRectangle.new (0, 0) (5, 5))) (pointGeom 5 5) =
        some (.leaf [pointGeom 5 5] (BoundingRectangle.new (0, 0) (5, 5)) 4, []) := by
      simp only [RtreeNode.setMbr, insertAux, List.nil_append]
    have h := insertAux_inner_eq [RtreeNode.leaf [] (BoundingRectangle.new (0, 0) (1, 1)) 4]
      (BoundingRectangle.new (0, 0) (1, 1)) 4 (pointGeom 5 5) 0
      (BoundingRectangle.new (0, 0) (5, 5))
      (RtreeNode.leaf [] (BoundingRectangle.new (0, 0) (1, 1)) 4)
      (RtreeNode.leaf [pointGeom 5 5] (BoundingRectangle.new (0, 0) (5, 5)) 4) []
      (by decide) (by rfl) h3
    rw [c3Node, h]
    rfl
  have h := c3_descent_path_encloses_entry c3Node (pointGeom 5 5) c3Result
    [BoundingRectangle.new (0, 0) (5, 5)] hrun
  exact ⟨h.1, h.2 _ (by simp)⟩

/-- C4 counterexample: with children mbrs `(0,0)-(2,2)` and `(0,0)-(1,1)`
and the entry mbr `(0,0)-(1,1)`, both children tie at zero enlargement and
the second has the strictly smaller resulting enclosing area, yet the
selection returns index 0 (the earliest), and `insert` routes the entry
into child 0 — the claim's secondary tie-break by smaller resulting area is
not implemented (`find_least_enlargement` updates only on strict
improvement). -/
theorem c4_tie_not_broken_by_smaller_area :
    find_least_enlargement [c4RectA, c4RectB] (BoundingRectangle.new (0, 0) (1, 1)) =
      some (0, BoundingRectangle.new (0, 0) (2, 2)) ∧
    enlargement c4RectA (BoundingRectangle.new (0, 0) (1, 1)) =
      enlargement c4RectB (BoundingRectangle.new (0, 0) (1, 1)) ∧
    (common_mbr [c4RectB, BoundingRectangle.new (0, 0) (1, 1)]).area <
      (common_mbr [c4RectA, BoundingRectangle.new (0, 0) (1, 1)]).area ∧
    RtreeNode.insert c4Node (lineGeom (0, 0) (1, 1)) =
      some (.inner
        [.leaf [lineGeom (0, 0) (1, 1)] (BoundingRectangle.new (0, 0) (2, 2)) 4,
         .leaf [] c4RectB 4]
        (BoundingRectangle.new (0, 0) (2, 2)) 4) := by
  refine ⟨by decide, by decide, by decide, ?_⟩
  have h3 : insertAux ((RtreeNode.leaf [] c4RectA 4).setMbr
      (BoundingRectangle.new (0, 0) (2, 2))) (lineGeom (0, 0) (1, 1)) =
      some (.leaf [lineGeom (0, 0) (1, 1)] (BoundingRectangle.new (0, 0) (2, 2)) 4, []) := by
    simp only [RtreeNode.setMbr, insertAux, List.nil_append]
  have h := insertAux_inner_eq [RtreeNode.leaf [] c4RectA 4, RtreeNode.leaf [] c4RectB 4]
    (BoundingRectangle.new (0, 0) (2, 2)) 4 (lineGeom (0, 0) (1, 1)) 0
    (BoundingRectangle.new (0, 0) (2, 2))
    (RtreeNode.leaf [] c4RectA 4)
    (RtreeNode.leaf [lineGeom (0, 0) (1, 1)] (BoundingRectangle.new (0, 0) (2, 2)) 4) []
    (by decide) (by rfl) h3
  rw [RtreeNode.insert, c4Node, h]
  rfl

/-- C4 (amended): on an inner node the selection picks the child of minimal
enlargement `enclosing(child.mbr, entry.mbr).area − child.mbr.area`, with
ties broken only by earliest position in the children collection (there is
no secondary tie-break by resulting area), the enlarged rectangle is
`enclosing(child.mbr, entry.mbr)`, and `insert` overwrites the chosen
child's mbr with it before recursing into that child. -/
theorem c4_least_enlargement_earliest_position :
    ∀ (ns : List RtreeNode) (mbr : BoundingRectangle) (cap : Nat)
      (g : RtreeGeometry) (i : Nat) (r : BoundingRectangle),
      find_least_enlargement (ns.map RtreeNode.mbr) g.mbr = some (i, r) →
      i < ns.length ∧
      r = common_mbr [(ns.getD i dNode).mbr, g.mbr] ∧
      (∀ j, j < ns.length →
        enlargement ((ns.getD i dNode).mbr) g.mbr ≤
          enlargement ((ns.getD j dNode).mbr) g.mbr) ∧
      (∀ j, j < i →
        enlargement ((ns.getD i dNode).mbr) g.mbr <
          enlargement ((ns.getD j dNode).mbr) g.mbr) ∧
      insertAux (.inner ns mbr cap) g =
        (insertAux ((ns.getD i dNode).setMbr r) g).map
          (fun p => (.inner (ns.set i p.1) mbr cap, p.1.mbr :: p.2)) := by
  intro ns mbr cap g i r h
  have hidx : idxMin (fun j => enlargement ((ns.map RtreeNode.mbr).getD j dRect) g.mbr)
        (ns.map RtreeNode.mbr).length = some i ∧
      r = common_mbr [(ns.map RtreeNode.mbr).getD i dRect, g.mbr] := by
    simp only [find_least_enlargement] at h
    split at h
    · cases h
    next k hk =>
      cases h
      exact ⟨hk, rfl⟩
  have hk := idxMin_some _ _ i hidx.1
  have hklen : i < ns.length := by
    have := hk.1
    rwa [List.length_map] at this
  have hmap : ∀ j, j < ns.length →
      (ns.map RtreeNode.mbr).getD j dRect = (ns.getD j dNode).mbr := by
    intro j hj
    exact getD_map_eq RtreeNode.mbr ns j hj dRect dNode
  refine ⟨hklen, by rw [hidx.2, hmap i hklen], ?_, ?_, ?_⟩
  · intro j hj
    have := hk.2.2.2 j (by rwa [List.length_map])
    rwa [hmap i hklen, hmap j hj] at this
  · intro j hj
    have := hk.2.2.1 j hj
    rwa [hmap i hklen, hmap j (lt_trans hj hklen)] at this
  · have hget : ns.get? i = some (ns.getD i dNode) := get?_eq_getD ns i hklen dNode
    cases hrec : insertAux ((ns.getD i dNode).setMbr r) g with
    | none =>
      rw [insertAux_inner_none ns mbr cap g i r (ns.getD i dNode) h hget hrec]
      simp [hrec]
    | some pr =>
      rw [insertAux_inner_eq ns mbr cap g i r (ns.getD i dNode) pr.1 pr.2 h hget
        (by rw [hrec])]
      simp [hrec]

/-- C4 witness: the amended theorem applied at the concrete two-child node
of the counterexample, selection hypothesis discharged by computation. -/
theorem c4_least_enlargement_earliest_position_witness :
    insertAux
      (.inner [RtreeNode.leaf [] c4RectA 4, RtreeNode.leaf [] c4RectB 4]
        (BoundingRectangle.new (0, 0) (2, 2)) 4) (lineGeom (0, 0) (1, 1)) =
      (insertAux
        ((([RtreeNode.leaf [] c4RectA 4, RtreeNode.leaf [] c4RectB 4] :
            List RtreeNode).getD 0 dNode).setMbr (BoundingRectangle.new (0, 0) (2, 2)))
        (lineGeom (0, 0) (1, 1))).map
        (fun p =>
          (.inner (([RtreeNode.leaf [] c4RectA 4, RtreeNode.leaf [] c4RectB 4] :
            List RtreeNode).set 0 p.1) (BoundingRectangle.new (0, 0) (2, 2)) 4,
           p.1.mbr :: p.2)) :=
  (c4_least_enlargement_earliest_position
    [RtreeNode.leaf [] c4RectA 4, RtreeNode.leaf [] c4RectB 4]
    (BoundingRectangle.new (0, 0) (2, 2)) 4 (lineGeom (0, 0) (1, 1)) 0
    (BoundingRectangle.new (0, 0) (2, 2)) (by decide)).2.2.2.2

/-- C5 counterexample: on the three rectangles `(0,0)-(10,10)`,
`(1,1)-(2,2)`, `(3,3)-(4,4)` the seed scan picks the pair `(0, 1)` — the
pair of maximal raw enclosing area — although the pair `(1, 2)` has strictly
larger waste `enclosing.area − a.area − b.area`; the individual areas are
never subtracted in `pick_seeds`. -/
theorem c5_seed_pair_not_waste_maximal :
    pickSeedsIdx (c5Geoms.map RtreeGeometry.mbr) = some (0, 1) ∧
    (1, 2) ∈ pairList c5Geoms.length ∧
    specWaste (lineGeom (0, 0) (10, 10)).mbr (lineGeom (1, 1) (2, 2)).mbr <
      specWaste (lineGeom (1, 1) (2, 2)).mbr (lineGeom (3, 3) (4, 4)).mbr := by
  refine ⟨by decide, by decide, by decide⟩

/-- C5 (amended): the seed pair is the unordered pair maximizing the raw
enclosing area `enclosing(a.mbr, b.mbr).area` (not Guttman's waste), ties
broken by the earliest pair in index order; both seeds are removed from the
source collection, and each seed group is a fresh node of the original
capacity holding exactly that seed with initial mbr equal to the seed's
mbr. -/
theorem c5_seeds_maximize_enclosing_area :
    ∀ (objects : List RtreeGeometry) (cap : Nat) (i j : Nat),
      pickSeedsIdx (objects.map RtreeGeometry.mbr) = some (i, j) →
      (i, j) ∈ pairList objects.length ∧
      (∀ q ∈ pairList objects.length, seedScore objects q ≤ seedScore objects (i, j)) ∧
      (∀ q ∈ pairList objects.length, lexLt q (i, j) →
        seedScore objects q < seedScore objects (i, j)) ∧
      pick_seeds RtreeGeometry.mbr cap objects =
        some ({ children := [objects.getD i dGeom], mbr := (objects.getD i dGeom).mbr,
                max_children := cap },
              { children := [objects.getD j dGeom], mbr := (objects.getD j dGeom).mbr,
                max_children := cap },
              (objects.eraseIdx i).eraseIdx (j - 1)) := by
  intro objects cap i j h
  have hlen : (objects.map RtreeGeometry.mbr).length = objects.length :=
    List.length_map _ _
  rcases pickPairGo_spec
      (fun p => (common_mbr [(objects.map RtreeGeometry.mbr).getD p.1 dRect,
        (objects.map RtreeGeometry.mbr).getD p.2 dRect]).area)
      (pairList (objects.map RtreeGeometry.mbr).length) NEGINF none with
    ⟨heq, _⟩ | ⟨l1, p, l2, hdec, heq, hm, hbefore, hle⟩
  · rw [pickSeedsIdx, heq] at h
    cases h
  · rw [pickSeedsIdx, heq] at h
    injection h with h'
    subst h'
    rw [hlen] at hdec
    have hmem : (i, j) ∈ pairList objects.length := by
      rw [hdec]
      exact List.mem_append.mpr (Or.inr (List.mem_cons_self _ _))
    have hscore : ∀ q, seedScore objects q =
        (common_mbr [(objects.map RtreeGeometry.mbr).getD q.1 dRect,
          (objects.map RtreeGeometry.mbr).getD q.2 dRect]).area := fun q => rfl
    have hij := mem_pairList.mp hmem
    refine ⟨hmem, ?_, ?_, ?_⟩
    · intro q hq
      rw [hscore q, hscore (i, j)]
      exact hle q (by rw [hlen]; exact hq)
    · intro q hq hlex
      rw [hscore q, hscore (i, j)]
      have hq' : q ∈ l1 ++ (i, j) :: l2 := by rwa [hdec] at hq
      rcases List.mem_append.mp hq' with hql | hqr
      · exact hbefore q hql
      · rcases List.mem_cons.mp hqr with rfl | hql2
        · simp only [lexLt] at hlex
          omega
        · have hpw := pairwise_pairList objects.length
          rw [hdec] at hpw
          have hpair := (List.pairwise_cons.mp (List.pairwise_append.mp hpw).2.1).1 q hql2
          simp only [lexLt] at hlex hpair
          omega
    · have hpick : pickSeedsIdx (objects.map RtreeGeometry.mbr) = some (i, j) := by
        rw [pickSeedsIdx, heq]
      have hgi : objects.get? i = some (objects.getD i dGeom) :=
        get?_eq_getD objects i (by omega) dGeom
      have hgj : (objects.eraseIdx i).get? (j - 1) = some (objects.getD j dGeom) := by
        rw [get?_eraseIdx_of_lt objects i j hij.1]
        exact get?_eq_getD objects j (by omega) dGeom
      simp only [pick_seeds, hpick, hgi, hgj]

/-- C5 witness: the amended theorem applied at the three concrete objects
of the counterexample, selection hypothesis discharged by computation. -/
theorem c5_seeds_maximize_enclosing_area_witness :
    pick_seeds RtreeGeometry.mbr 4 c5Geoms =
      some ({ children := [c5Geoms.getD 0 dGeom], mbr := (c5Geoms.getD 0 dGeom).mbr,
              max_children := 4 },
            { children := [c5Geoms.getD 1 dGeom], mbr := (c5Geoms.getD 1 dGeom).mbr,
              max_children := 4 },
            (c5Geoms.eraseIdx 0).eraseIdx (1 - 1)) :=
  (c5_seeds_maximize_enclosing_area c5Geoms 4 0 1 (by decide)).2.2.2

/-- C10: the least-enlargement scan has a defined result exactly when some
candidate's enlargement is strictly below the `i64::MAX` sentinel (so never
on an empty candidate list); under that precondition it returns the
earliest candidate achieving the minimal enlargement; and `insert` on an
inner node with no children takes the undefined `assume_init` path, modelled
as failure. -/
theorem c10_selection_defined_iff_improvement :
    ∀ (rects : List BoundingRectangle) (e : BoundingRectangle),
      ((find_least_enlargement rects e).isSome = true ↔
        ∃ k, k < rects.length ∧ enlargement (rects.getD k dRect) e < INF) ∧
      (∀ i r, find_least_enlargement rects e = some (i, r) →
        i < rects.length ∧
        enlargement (rects.getD i dRect) e < INF ∧
        (∀ j, j < rects.length →
          enlargement (rects.getD i dRect) e ≤ enlargement (rects.getD j dRect) e) ∧
        (∀ j, j < i →
          enlargement (rects.getD i dRect) e < enlargement (rects.getD j dRect) e)) ∧
      (∀ (mbr : BoundingRectangle) (cap : Nat) (g : RtreeGeometry),
        RtreeNode.insert (RtreeNode.inner [] mbr cap) g = none) := by
  intro rects e
  refine ⟨?_, ?_, ?_⟩
  · cases hidx : idxMin (fun k => enlargement (rects.getD k dRect) e) rects.length with
    | none =>
      simp only [find_least_enlargement, hidx]
      constructor
      · intro hfalse
        cases hfalse
      · rintro ⟨k, hk, hks⟩
        have := (idxMin_isSome_iff
          (fun k => enlargement (rects.getD k dRect) e) rects.length).mpr ⟨k, hk, hks⟩
        rw [hidx] at this
        cases this
    | some k =>
      simp only [find_least_enlargement, hidx, Option.isSome_some, true_iff]
      have := (idxMin_isSome_iff
        (fun k => enlargement (rects.getD k dRect) e) rects.length).mp
        (by rw [hidx]; rfl)
      exact this
  · intro i r h
    have hidx : idxMin (fun k => enlargement (rects.getD k dRect) e) rects.length
        = some i := by
      simp only [find_least_enlargement] at h
      split at h
      · cases h
      next k hk =>
        cases h
        exact hk
    have := idxMin_some _ _ i hidx
    exact ⟨this.1, this.2.1, fun j hj => this.2.2.2 j hj, fun j hj => this.2.2.1 j hj⟩
  · intro mbr cap g
    have hfle : find_least_enlargement (([] : List RtreeNode).map RtreeNode.mbr)
        g.mbr = none := rfl
    simp only [RtreeNode.insert, insertAux, hfle, Option.map_none']
